import Mathlib

/-!
Shallow embedding of the Recipe-Bot core pipeline (`src/main.rs`):
the record codec (`parse_recipe_file`, `save_recipe`), the weekly
scheduler/aggregator (`process_selected_recipes`, `randomize_all`,
`randomize_single`) and the PDF layout engine (`wrap_text`, `add_text`),
together with theorems settling the specification claims.

Rust strings are modelled as lists of characters; file contents as lists
of characters (bytes of a UTF-8 text); the line iterator of `BufReader`
as an explicit split on newline characters.  Floating-point page
coordinates (`f32`) are modelled by rationals; the constants `0.6` and
`0.3` of the width estimate become `3/5` and `3/10`.
-/

namespace RecipeBot

/-- A Rust `String` / `&str`, modelled as its sequence of characters. -/
abbrev Str := List Char

/-- Rust `str::trim_start` (restricted to the ASCII whitespace that
`Char.isWhitespace` recognises; record files contain no exotic Unicode
whitespace). -/
def trimL (s : Str) : Str := s.dropWhile Char.isWhitespace

/-- Whitespace removal at the end of a string. -/
def trimR (s : Str) : Str := (trimL s.reverse).reverse

/-- Rust `str::trim`: whitespace removed from both ends. -/
def trim (s : Str) : Str := trimR (trimL s)

/-- Rust `line.splitn(2, '\t')` for a line that contains a tab: the part
before the first tab and the part after it.  (On a tab-free input it
returns `(s, [])`; the parser only calls it after checking
`line.contains('\t')`, in which case `splitn` always yields exactly two
parts, so the source's `parts.len() == 2` test is always true there.) -/
def splitTab : Str → Str × Str
  | [] => ([], [])
  | c :: rest =>
    if c = '\t' then ([], rest)
    else
      let p := splitTab rest
      (c :: p.1, p.2)

/-- Split a character stream at every newline, keeping empty segments
(`"a\nb"` gives `["a", "b"]`, `""` gives `[""]`). -/
def splitNL : Str → List Str
  | [] => [[]]
  | c :: rest =>
    if c = '\n' then [] :: splitNL rest
    else
      match splitNL rest with
      | [] => [[c]]
      | l :: ls => (c :: l) :: ls

/-- The bytes written by a sequence of `writeln!` calls: every line
followed by a newline character. -/
def joinNL (ls : List Str) : Str := ls.foldr (fun l acc => l ++ '\n' :: acc) []

/-- Remove one trailing carriage return, as Rust's line iterator does. -/
def stripCR (l : Str) : Str := if l.getLast? = some '\r' then l.dropLast else l

/-- Rust's `BufRead::lines` view of a byte stream: split at `'\n'`, drop
the empty segment a trailing newline would yield, strip one trailing
`'\r'` from each line. -/
def rustLines (s : Str) : List Str :=
  let segs := splitNL s
  let segs := if segs.getLast? = some [] then segs.dropLast else segs
  segs.map stripCR

/-- Rust `str::split(',')`: the (possibly empty) parts between commas. -/
def splitComma : Str → List Str
  | [] => [[]]
  | c :: rest =>
    if c = ',' then [] :: splitComma rest
    else
      match splitComma rest with
      | [] => [[c]]
      | l :: ls => (c :: l) :: ls

/-- The central entity: one parsed recipe record.  (`from` is a Lean
keyword, hence the field name `from_`.) -/
structure Recipe where
  title : Str
  from_ : Str
  servings : Str
  prep_time : Str
  cook_time : Str
  total_time : Str
  ingreds : List Str
  instructions : List Str
  notes : List Str
deriving DecidableEq

/-- The all-empty recipe `parse_recipe_file` starts from. -/
def emptyRecipe : Recipe := ⟨[], [], [], [], [], [], [], [], []⟩

/-- The parser's `current_section` variable.  The Rust source stores it
as a string that only ever holds `""`, `"Ingredients"`, `"Instructions"`
or `"Notes"`; the four values are modelled as an enumeration. -/
inductive CurSection
  | nosection
  | ingredients
  | instructions
  | notes
deriving DecidableEq

/-- One iteration of `parse_recipe_file`'s line loop: skip blank lines,
treat tab-bearing lines as header lines keyed by the text before the
first tab, otherwise recognise section markers or append the trimmed
line to the open section. -/
def parseLine : Recipe × CurSection → Str → Recipe × CurSection
  | (r, cs), line =>
    if trim line = [] then (r, cs)
    else if '\t' ∈ line then
      let parts := splitTab line
      if trim parts.1 = "Title".data then ({ r with title := trim parts.2 }, cs)
      else if trim parts.1 = "From".data then ({ r with from_ := trim parts.2 }, cs)
      else if trim parts.1 = "Servings".data then ({ r with servings := trim parts.2 }, cs)
      else if trim parts.1 = "Prep Time".data then ({ r with prep_time := trim parts.2 }, cs)
      else if trim parts.1 = "Cook Time".data then ({ r with cook_time := trim parts.2 }, cs)
      else if trim parts.1 = "Total Time".data then ({ r with total_time := trim parts.2 }, cs)
      else (r, cs)
    else
      let t := trim line
      if t = "Ingredients Start".data then (r, CurSection.ingredients)
      else if t = "Ingredients End".data then (r, CurSection.nosection)
      else if t = "Instructions Start".data then (r, CurSection.instructions)
      else if t = "Instructions End".data then (r, CurSection.nosection)
      else if t = "Notes Start".data then (r, CurSection.notes)
      else if t = "Notes End".data then (r, CurSection.nosection)
      else
        match cs with
        | CurSection.ingredients => ({ r with ingreds := r.ingreds ++ [t] }, cs)
        | CurSection.instructions => ({ r with instructions := r.instructions ++ [t] }, cs)
        | CurSection.notes => ({ r with notes := r.notes ++ [t] }, cs)
        | CurSection.nosection => (r, cs)

/-- `parse_recipe_file`, on the list of lines the reader yields. -/
def parse_recipe_file (lines : List Str) : Recipe :=
  (List.foldl parseLine (emptyRecipe, CurSection.nosection) lines).1

/-- Decoding a record byte stream: read it line by line and parse. -/
def decode (s : Str) : Recipe := parse_recipe_file (rustLines s)

/-- The lines emitted for one `Recipe` by the `writeln!` sequence of
`save_recipe`: six header lines, then each section between its markers. -/
def serialize (r : Recipe) : List Str :=
  ["Title\t".data ++ r.title,
   "From\t".data ++ r.from_,
   "Servings\t".data ++ r.servings,
   "Prep Time\t".data ++ r.prep_time,
   "Cook Time\t".data ++ r.cook_time,
   "Total Time\t".data ++ r.total_time,
   "Ingredients Start".data]
  ++ r.ingreds
  ++ ["Ingredients End".data, "Instructions Start".data]
  ++ r.instructions
  ++ ["Instructions End".data, "Notes Start".data]
  ++ r.notes
  ++ ["Notes End".data]

/-- `CreateRecipeManuallyScreen::save_recipe` from the screen's fields:
the ingredients text box is split on commas and each part trimmed, the
instruction and note rows are written verbatim. -/
def save_recipe (title from_ servings prep_time cook_time total_time : Str)
    (ingredients : Str) (instructions notes : List Str) : List Str :=
  ["Title\t".data ++ title,
   "From\t".data ++ from_,
   "Servings\t".data ++ servings,
   "Prep Time\t".data ++ prep_time,
   "Cook Time\t".data ++ cook_time,
   "Total Time\t".data ++ total_time,
   "Ingredients Start".data]
  ++ (splitComma ingredients).map trim
  ++ ["Ingredients End".data, "Instructions Start".data]
  ++ instructions
  ++ ["Instructions End".data, "Notes Start".data]
  ++ notes
  ++ ["Notes End".data]

/-- The bytes `save_recipe` writes for a `Recipe`: lines joined by the
newline `writeln!` appends. -/
def encode (r : Recipe) : Str := joinNL (serialize r)

/-- The six section-marker lines of the record grammar. -/
def markers : List Str :=
  ["Ingredients Start".data, "Ingredients End".data,
   "Instructions Start".data, "Instructions End".data,
   "Notes Start".data, "Notes End".data]

/-- The six header keys the parser recognises. -/
def knownKeys : List Str :=
  ["Title".data, "From".data, "Servings".data,
   "Prep Time".data, "Cook Time".data, "Total Time".data]

/-- The six scalar fields of a recipe, in header order. -/
def headerValues (r : Recipe) : List Str :=
  [r.title, r.from_, r.servings, r.prep_time, r.cook_time, r.total_time]

/-- Modelled from the spec: a section block is its `"<Name> Start"`
marker, one line per item, then its `"<Name> End"` marker. -/
def specSection (name : Str) (items : List Str) : List Str :=
  (name ++ " Start".data) :: (items ++ [name ++ " End".data])

/-- Modelled from the spec: the serializer emits the six header lines
unconditionally (key, tab, value — value may be empty), then the
`Ingredients`, `Instructions` and `Notes` blocks, in that fixed order. -/
def specSerialize (r : Recipe) : List Str :=
  (knownKeys.zip (headerValues r)).map (fun kv => kv.1 ++ '\t' :: kv.2)
  ++ specSection ("Ingredients").data r.ingreds
  ++ specSection ("Instructions").data r.instructions
  ++ specSection ("Notes").data r.notes

/-- A scalar field value the codec can represent faithfully: free of
tabs and newlines and already whitespace-trimmed. -/
abbrev cleanField (f : Str) : Prop := trim f = f ∧ '\n' ∉ f ∧ '\t' ∉ f

/-- A section body line the codec can represent faithfully: trimmed,
non-empty, free of tabs and newlines, and not a section marker. -/
abbrev cleanBody (l : Str) : Prop :=
  trim l = l ∧ l ≠ [] ∧ '\n' ∉ l ∧ '\t' ∉ l ∧ l ∉ markers

/-- The example record of the spec's scenario: headers for title and
servings, an ingredients block, and an instructions block terminated by
a (mismatched) `Ingredients End` marker. -/
def exampleLines : List Str :=
  ["Title\tPasta".data, "Servings\t4".data,
   "Ingredients Start".data, "Pasta".data, "Salt".data, "Ingredients End".data,
   "Instructions Start".data, "Boil water".data, "Ingredients End".data]

/-- The recipe the example record decodes to. -/
def exampleRecipe : Recipe :=
  ⟨"Pasta".data, [], "4".data, [], [], [],
   ["Pasta".data, "Salt".data], ["Boil water".data], []⟩

/-! ## Scheduler & Aggregator -/

/-- The seven day labels, in the fixed order the scheduler uses. -/
def days : List Str :=
  ["Monday".data, "Tuesday".data, "Wednesday".data, "Thursday".data,
   "Friday".data, "Saturday".data, "Sunday".data]

/-- The inner scan of `process_selected_recipes`: the raw lines lying
between `Ingredients Start` and `Ingredients End` markers, collected
with the `in_ingredients` flag.  Unlike the codec's parser it pushes
each line verbatim — untrimmed, including blank lines and lines that
contain a tab. -/
def extract_ingredients (lines : List Str) : List Str :=
  (lines.foldl
    (fun (acc : List Str × Bool) line =>
      if trim line = "Ingredients Start".data then (acc.1, true)
      else if trim line = "Ingredients End".data then (acc.1, false)
      else if acc.2 then (acc.1 ++ [line], acc.2)
      else acc)
    ([], false)).1

/-- The per-day loop of `process_selected_recipes` over `(day, recipe
name)` pairs.  An empty name is skipped; otherwise the recipe's stored
bytes are resolved (modelling both `fs::copy` from and `File::open` of
`recipes/dinner/<name>.rec`, which fail exactly when the record is
missing) and the day's schedule line and raw ingredient lines are
accumulated.  The first failure aborts the whole run with that error,
mirroring the `?` operator. -/
def processDays (fsys : Str → Option (List Str)) :
    List (Str × Str) → Except Str (List Str × List Str)
  | [] => Except.ok ([], [])
  | (day, name) :: rest =>
    if name = [] then processDays fsys rest
    else
      match fsys name with
      | none => Except.error name
      | some content =>
        match processDays fsys rest with
        | Except.error e => Except.error e
        | Except.ok (ings, sched) =>
          Except.ok (extract_ingredients content ++ ings,
                     (day ++ ": ".data ++ name) :: sched)

/-- `CreateWeeklyRecipesScreen::process_selected_recipes`: walk the
seven schedule slots in day order and, on success, return the shopping
list (`schedule/ingredients.sup`) and the schedule report
(`schedule/schedule.txt`) as their line sequences.  The two artifact
files are created only after the loop finishes, so an error means
neither is written. -/
def process_selected_recipes (selected : List Str)
    (fsys : Str → Option (List Str)) : Except Str (List Str × List Str) :=
  processDays fsys (days.zip selected)

/-- The shopping list the spec's aggregation sentence predicts when the
ingredient sections are taken verbatim: concatenation, in day order, of
the raw ingredient-section lines of every non-empty slot.  Modelled from
the spec for comparison with `process_selected_recipes`. -/
def specShoppingRaw (selected : List Str) (fsys : Str → Option (List Str)) : List Str :=
  ((days.zip selected).filter (fun p => !(p.2.isEmpty))).flatMap
    (fun p => extract_ingredients ((fsys p.2).getD []))

/-- The shopping list claim C2 predicts literally: concatenation, in day
order, of each assigned recipe's ingredient sequence as the Codec would
parse it.  Modelled from the spec for comparison with
`process_selected_recipes`. -/
def specShoppingCodec (selected : List Str) (fsys : Str → Option (List Str)) : List Str :=
  ((days.zip selected).filter (fun p => !(p.2.isEmpty))).flatMap
    (fun p => (parse_recipe_file ((fsys p.2).getD [])).ingreds)

/-- The schedule report: one `"<Day>: <name>"` line per non-empty slot,
in day order.  Modelled from the spec for comparison with
`process_selected_recipes`. -/
def specReport (selected : List Str) (_fsys : Str → Option (List Str)) : List Str :=
  ((days.zip selected).filter (fun p => !(p.2.isEmpty))).map
    (fun p => p.1 ++ ": ".data ++ p.2)

/-- `SliceRandom::choose`: a uniformly drawn element, `none` on an empty
slice.  The randomness is modelled by the drawn index `k`. -/
def choose (pool : List Str) (k : Nat) : Option Str :=
  if pool.isEmpty then none else pool[k % pool.length]?

/-- `CreateWeeklyRecipesScreen::randomize_all`: every slot is
overwritten with a fresh draw from the pool, an empty pool yielding the
empty identifier (`unwrap_or(&String::new())`).  Slot `i` consumes draw
`ks i`. -/
def randomize_all (recipes : List Str) (selected : List Str) (ks : Nat → Nat) : List Str :=
  selected.mapIdx (fun i _ => (choose recipes (ks i)).getD [])

/-- `CreateWeeklyRecipesScreen::randomize_single`: overwrite slot `idx`
with a draw; `get_mut` makes an out-of-range index a no-op, which is
exactly `List.set`'s behaviour. -/
def randomize_single (recipes : List Str) (selected : List Str) (idx k : Nat) : List Str :=
  selected.set idx ((choose recipes k).getD [])

/-! ## Document layout engine -/

/-- One positioned piece of text placed by `layer.use_text`. -/
structure PLine where
  text : Str
  size : ℚ
  x : ℚ
  y : ℚ
deriving DecidableEq

/-- The mutable layout state of `generate_recipe_pdf`: the vertical
cursor and the pages so far (the last page is the current one). -/
structure PdfState where
  y_position : ℚ
  pages : List (List PLine)
deriving DecidableEq

/-- `str::split_whitespace`: maximal whitespace-free words, no empties.
`cur` accumulates the current word in reverse. -/
def wordsAux (cur : Str) : Str → List Str
  | [] => if cur = [] then [] else [cur.reverse]
  | c :: rest =>
    if c.isWhitespace then
      if cur = [] then wordsAux [] rest else cur.reverse :: wordsAux [] rest
    else wordsAux (c :: cur) rest

/-- The word list `wrap_text` starts from. -/
def splitWS (s : Str) : List Str := wordsAux [] s

/-- The word loop of `wrap_text`: greedily extend `current` while the
estimated width `current.len()*font_size*0.6` plus a `0.3*font_size`
space and the word's width stays within `max_width`; otherwise flush
`current` and start over with the word. -/
def wrapAux (font_size max_width : ℚ) (lines : List Str) (current : Str) :
    List Str → List Str
  | [] => if current = [] then lines else lines ++ [current]
  | w :: ws =>
    if current = [] then wrapAux font_size max_width lines w ws
    else if (current.length : ℚ) * font_size * (3 / 5) + font_size * (3 / 10)
        + (w.length : ℚ) * font_size * (3 / 5) ≤ max_width then
      wrapAux font_size max_width lines (current ++ ' ' :: w) ws
    else wrapAux font_size max_width (lines ++ [current]) w ws

/-- `wrap_text(text, font_size, max_width)`. -/
def wrap_text (text : Str) (font_size max_width : ℚ) : List Str :=
  wrapAux font_size max_width [] [] (splitWS text)

/-- Add a placed line to the current (last) page. -/
def appendToLast (ps : List (List PLine)) (l : PLine) : List (List PLine) :=
  ps.dropLast ++ [ps.getLastD [] ++ [l]]

/-- The body of `add_text`'s per-line loop: if the cursor has dropped
below the bottom margin (`y_position < 20.0`) a fresh page is opened and
the cursor reset to `280.0`; then the line is placed at the cursor and
the cursor moves down by `size + 2.0`. -/
def place_line (size x : ℚ) (st : PdfState) (line : Str) : PdfState :=
  let st1 := if st.y_position < 20 then
      { y_position := (280 : ℚ), pages := st.pages ++ [[]] }
    else st
  { y_position := st1.y_position - (size + 2),
    pages := appendToLast st1.pages ⟨line, size, x, st1.y_position⟩ }

/-- The `add_text` closure: wrap the text at the hard-coded width
`680.0` and emit every wrapped line through the pagination step. -/
def add_text (text : Str) (size x : ℚ) (st : PdfState) : PdfState :=
  (wrap_text text size 680).foldl (place_line size x) st

/-! ## String lemmas -/

theorem length_dropWhile_le (p : Char → Bool) :
    ∀ l : List Char, (List.dropWhile p l).length ≤ l.length
  | [] => Nat.le_refl _
  | c :: t => by
    rw [List.dropWhile_cons]
    by_cases h : p c
    · simp only [h, if_true]
      exact Nat.le_trans (length_dropWhile_le p t) (Nat.le_succ _)
    · simp [h]

theorem dropWhile_eq_self_of_length (p : Char → Bool) :
    ∀ l : List Char, (List.dropWhile p l).length = l.length → List.dropWhile p l = l
  | [], _ => rfl
  | c :: t, h => by
    rw [List.dropWhile_cons] at h ⊢
    by_cases hc : p c
    · simp only [hc, if_true] at h ⊢
      have := length_dropWhile_le p t
      simp only [List.length_cons] at h
      omega
    · simp [hc]

theorem length_trimL_le (l : Str) : (trimL l).length ≤ l.length :=
  length_dropWhile_le _ l

theorem length_trimR_le (l : Str) : (trimR l).length ≤ l.length := by
  have := length_trimL_le l.reverse
  simpa [trimR] using this

theorem trimL_of_trim_eq (l : Str) (h : trim l = l) : trimL l = l := by
  have h1 : l.length ≤ (trimL l).length := by
    have h2 : (trim l).length = l.length := by rw [h]
    calc l.length = (trim l).length := h2.symm
      _ = (trimR (trimL l)).length := rfl
      _ ≤ (trimL l).length := length_trimR_le _
  exact dropWhile_eq_self_of_length _ l (Nat.le_antisymm (length_trimL_le l) h1)

theorem trimR_of_trim_eq (l : Str) (h : trim l = l) : trimR l = l := by
  have h2 := trimL_of_trim_eq l h
  calc trimR l = trimR (trimL l) := by rw [h2]
    _ = trim l := rfl
    _ = l := h

theorem head_not_ws_of_trimL (l : Str) (h : trimL l = l) :
    ∀ c, l.head? = some c → c.isWhitespace = false := by
  intro c hc
  cases l with
  | nil => simp at hc
  | cons a t =>
    have hac : a = c := by simpa using hc
    by_cases hw : a.isWhitespace
    · exfalso
      have h1 : trimL (a :: t) = trimL t := by
        simp [trimL, List.dropWhile_cons, hw]
      rw [h1] at h
      have h2 := length_trimL_le t
      rw [h] at h2
      simp at h2
    · rw [← hac]
      simpa using hw

theorem getLast_not_ws_of_trim (l : Str) (h : trim l = l) :
    ∀ c, l.getLast? = some c → c.isWhitespace = false := by
  intro c hc
  have hR := trimR_of_trim_eq l h
  have h2 : trimL l.reverse = l.reverse := by
    have h3 := congrArg List.reverse hR
    simpa [trimR] using h3
  exact head_not_ws_of_trimL l.reverse h2 c (by rw [List.head?_reverse]; exact hc)

theorem exists_mem_dropWhile (p : Char → Bool) :
    ∀ l : List Char, (∃ c ∈ l, p c = false) →
      ∃ c ∈ List.dropWhile p l, p c = false
  | [], h => by simp at h
  | a :: t, h => by
    rw [List.dropWhile_cons]
    by_cases ha : p a
    · simp only [ha, if_true]
      apply exists_mem_dropWhile p t
      obtain ⟨c, hc, hpc⟩ := h
      rcases List.mem_cons.mp hc with rfl | hct
      · rw [ha] at hpc; cases hpc
      · exact ⟨c, hct, hpc⟩
    · rw [if_neg ha]
      exact h

theorem dropWhile_ne_nil (p : Char → Bool) (l : List Char)
    (h : ∃ c ∈ l, p c = false) : List.dropWhile p l ≠ [] := by
  obtain ⟨c, hc, hpc⟩ := exists_mem_dropWhile p l h
  intro hnil
  rw [hnil] at hc
  simp at hc

theorem trim_ne_nil (l : Str) (h : ∃ c ∈ l, c.isWhitespace = false) :
    trim l ≠ [] := by
  have h1 : ∃ c ∈ trimL l, c.isWhitespace = false := exists_mem_dropWhile _ l h
  have h2 : ∃ c ∈ (trimL l).reverse, c.isWhitespace = false := by
    obtain ⟨c, hc, hw⟩ := h1
    exact ⟨c, List.mem_reverse.mpr hc, hw⟩
  have h3 := dropWhile_ne_nil _ (trimL l).reverse h2
  intro hcontra
  apply h3
  have h4 : trimL ((trimL l).reverse) = [] := by
    have h5 := congrArg List.reverse hcontra
    simpa only [trim, trimR, List.reverse_reverse, List.reverse_nil] using h5
  exact h4

theorem splitTab_append (k v : Str) (hk : '\t' ∉ k) :
    splitTab (k ++ '\t' :: v) = (k, v) := by
  induction k with
  | nil => simp [splitTab]
  | cons c t ih =>
    have hc : c ≠ '\t' := fun h => hk (h ▸ List.mem_cons_self c t)
    have ht : '\t' ∉ t := fun h => hk (List.mem_cons_of_mem c h)
    simp [splitTab, hc, ih ht]

theorem splitNL_append (l rest : Str) (h : '\n' ∉ l) :
    splitNL (l ++ '\n' :: rest) = l :: splitNL rest := by
  induction l with
  | nil => simp [splitNL]
  | cons c t ih =>
    have hc : c ≠ '\n' := fun hcn => h (hcn ▸ List.mem_cons_self c t)
    have ht : '\n' ∉ t := fun hcn => h (List.mem_cons_of_mem c hcn)
    simp [splitNL, hc, ih ht]

theorem splitNL_joinNL : ∀ ls : List Str, (∀ l ∈ ls, '\n' ∉ l) →
    splitNL (joinNL ls) = ls ++ [[]]
  | [], _ => rfl
  | l :: ls, h => by
    have h1 : '\n' ∉ l := h l (List.mem_cons_self l ls)
    have h2 : ∀ x ∈ ls, '\n' ∉ x := fun x hx => h x (List.mem_cons_of_mem l hx)
    show splitNL (l ++ '\n' :: joinNL ls) = (l :: ls) ++ [[]]
    rw [splitNL_append l _ h1, splitNL_joinNL ls h2]
    rfl

theorem map_stripCR (ls : List Str) (h : ∀ l ∈ ls, l.getLast? ≠ some '\r') :
    ls.map stripCR = ls := by
  induction ls with
  | nil => rfl
  | cons l t ih =>
    have h1 : stripCR l = l := by
      simp [stripCR, h l (List.mem_cons_self l t)]
    simp [h1, ih (fun x hx => h x (List.mem_cons_of_mem l hx))]

theorem rustLines_joinNL (ls : List Str)
    (h : ∀ l ∈ ls, '\n' ∉ l ∧ l.getLast? ≠ some '\r') :
    rustLines (joinNL ls) = ls := by
  unfold rustLines
  rw [splitNL_joinNL ls (fun l hl => (h l hl).1)]
  simp only [List.getLast?_concat, List.dropLast_concat, if_pos]
  exact map_stripCR ls (fun l hl => (h l hl).2)

/-! ## Parser step lemmas -/

theorem parseLine_blank (r : Recipe) (cs : CurSection) (l : Str) (h : trim l = []) :
    parseLine (r, cs) l = (r, cs) := by
  simp [parseLine, h]

theorem parseLine_header_title (r : Recipe) (cs : CurSection) (v : Str) :
    parseLine (r, cs) ("Title\t".data ++ v) = ({ r with title := trim v }, cs) := by
  have hblank : trim ("Title\t".data ++ v) ≠ [] :=
    trim_ne_nil _ ⟨'T', List.mem_append_left _ (by decide), by decide⟩
  have htab : '\t' ∈ "Title\t".data ++ v := List.mem_append_left _ (by decide)
  have hsplit : splitTab ("Title\t".data ++ v) = ("Title".data, v) :=
    splitTab_append ("Title".data) v (by decide)
  simp only [parseLine]
  rw [if_neg hblank, if_pos htab, hsplit]
  simp +decide

theorem parseLine_header_from (r : Recipe) (cs : CurSection) (v : Str) :
    parseLine (r, cs) ("From\t".data ++ v) = ({ r with from_ := trim v }, cs) := by
  have hblank : trim ("From\t".data ++ v) ≠ [] :=
    trim_ne_nil _ ⟨'F', List.mem_append_left _ (by decide), by decide⟩
  have htab : '\t' ∈ "From\t".data ++ v := List.mem_append_left _ (by decide)
  have hsplit : splitTab ("From\t".data ++ v) = ("From".data, v) :=
    splitTab_append ("From".data) v (by decide)
  simp only [parseLine]
  rw [if_neg hblank, if_pos htab, hsplit]
  simp +decide

theorem parseLine_header_servings (r : Recipe) (cs : CurSection) (v : Str) :
    parseLine (r, cs) ("Servings\t".data ++ v) = ({ r with servings := trim v }, cs) := by
  have hblank : trim ("Servings\t".data ++ v) ≠ [] :=
    trim_ne_nil _ ⟨'S', List.mem_append_left _ (by decide), by decide⟩
  have htab : '\t' ∈ "Servings\t".data ++ v := List.mem_append_left _ (by decide)
  have hsplit : splitTab ("Servings\t".data ++ v) = ("Servings".data, v) :=
    splitTab_append ("Servings".data) v (by decide)
  simp only [parseLine]
  rw [if_neg hblank, if_pos htab, hsplit]
  simp +decide

theorem parseLine_header_prep (r : Recipe) (cs : CurSection) (v : Str) :
    parseLine (r, cs) ("Prep Time\t".data ++ v) = ({ r with prep_time := trim v }, cs) := by
  have hblank : trim ("Prep Time\t".data ++ v) ≠ [] :=
    trim_ne_nil _ ⟨'P', List.mem_append_left _ (by decide), by decide⟩
  have htab : '\t' ∈ "Prep Time\t".data ++ v := List.mem_append_left _ (by decide)
  have hsplit : splitTab ("Prep Time\t".data ++ v) = ("Prep Time".data, v) :=
    splitTab_append ("Prep Time".data) v (by decide)
  simp only [parseLine]
  rw [if_neg hblank, if_pos htab, hsplit]
  simp +decide

theorem parseLine_header_cook (r : Recipe) (cs : CurSection) (v : Str) :
    parseLine (r, cs) ("Cook Time\t".data ++ v) = ({ r with cook_time := trim v }, cs) := by
  have hblank : trim ("Cook Time\t".data ++ v) ≠ [] :=
    trim_ne_nil _ ⟨'C', List.mem_append_left _ (by decide), by decide⟩
  have htab : '\t' ∈ "Cook Time\t".data ++ v := List.mem_append_left _ (by decide)
  have hsplit : splitTab ("Cook Time\t".data ++ v) = ("Cook Time".data, v) :=
    splitTab_append ("Cook Time".data) v (by decide)
  simp only [parseLine]
  rw [if_neg hblank, if_pos htab, hsplit]
  simp +decide

theorem parseLine_header_total (r : Recipe) (cs : CurSection) (v : Str) :
    parseLine (r, cs) ("Total Time\t".data ++ v) = ({ r with total_time := trim v }, cs) := by
  have hblank : trim ("Total Time\t".data ++ v) ≠ [] :=
    trim_ne_nil _ ⟨'T', List.mem_append_left _ (by decide), by decide⟩
  have htab : '\t' ∈ "Total Time\t".data ++ v := List.mem_append_left _ (by decide)
  have hsplit : splitTab ("Total Time\t".data ++ v) = ("Total Time".data, v) :=
    splitTab_append ("Total Time".data) v (by decide)
  simp only [parseLine]
  rw [if_neg hblank, if_pos htab, hsplit]
  simp +decide

theorem parseLine_ingStart (r : Recipe) (cs : CurSection) :
    parseLine (r, cs) ("Ingredients Start".data) = (r, CurSection.ingredients) := rfl

theorem parseLine_ingEnd (r : Recipe) (cs : CurSection) :
    parseLine (r, cs) ("Ingredients End".data) = (r, CurSection.nosection) := rfl

theorem parseLine_insStart (r : Recipe) (cs : CurSection) :
    parseLine (r, cs) ("Instructions Start".data) = (r, CurSection.instructions) := rfl

theorem parseLine_insEnd (r : Recipe) (cs : CurSection) :
    parseLine (r, cs) ("Instructions End".data) = (r, CurSection.nosection) := rfl

theorem parseLine_notStart (r : Recipe) (cs : CurSection) :
    parseLine (r, cs) ("Notes Start".data) = (r, CurSection.notes) := rfl

theorem parseLine_notEnd (r : Recipe) (cs : CurSection) :
    parseLine (r, cs) ("Notes End".data) = (r, CurSection.nosection) := rfl

theorem parseLine_unknownKey (r : Recipe) (cs : CurSection) (l : Str)
    (ht : '\t' ∈ l) (h : trim (splitTab l).1 ∉ knownKeys) :
    parseLine (r, cs) l = (r, cs) := by
  by_cases hb : trim l = []
  · exact parseLine_blank r cs l hb
  · simp only [knownKeys, List.mem_cons, List.not_mem_nil, or_false, not_or] at h
    obtain ⟨n1, n2, n3, n4, n5, n6⟩ := h
    simp only [parseLine]
    rw [if_neg hb, if_pos ht, if_neg n1, if_neg n2, if_neg n3, if_neg n4, if_neg n5,
      if_neg n6]

theorem parseLine_nosection_discard (r : Recipe) (l : Str)
    (h1 : trim l ≠ []) (h2 : '\t' ∉ l) (h3 : trim l ∉ markers) :
    parseLine (r, CurSection.nosection) l = (r, CurSection.nosection) := by
  simp only [markers, List.mem_cons, List.not_mem_nil, or_false, not_or] at h3
  obtain ⟨m1, m2, m3, m4, m5, m6⟩ := h3
  simp only [parseLine]
  rw [if_neg h1, if_neg h2, if_neg m1, if_neg m2, if_neg m3, if_neg m4, if_neg m5,
    if_neg m6]

theorem parseLine_body_ing (r : Recipe) (g : Str) (h1 : trim g = g) (h2 : g ≠ [])
    (h3 : '\t' ∉ g) (h4 : g ∉ markers) :
    parseLine (r, CurSection.ingredients) g
      = ({ r with ingreds := r.ingreds ++ [g] }, CurSection.ingredients) := by
  have hb : trim g ≠ [] := by rw [h1]; exact h2
  rw [← h1] at h4
  simp only [markers, List.mem_cons, List.not_mem_nil, or_false, not_or] at h4
  obtain ⟨m1, m2, m3, m4, m5, m6⟩ := h4
  simp only [parseLine]
  rw [if_neg hb, if_neg h3, if_neg m1, if_neg m2, if_neg m3, if_neg m4, if_neg m5,
    if_neg m6, h1]

theorem parseLine_body_ins (r : Recipe) (g : Str) (h1 : trim g = g) (h2 : g ≠ [])
    (h3 : '\t' ∉ g) (h4 : g ∉ markers) :
    parseLine (r, CurSection.instructions) g
      = ({ r with instructions := r.instructions ++ [g] }, CurSection.instructions) := by
  have hb : trim g ≠ [] := by rw [h1]; exact h2
  rw [← h1] at h4
  simp only [markers, List.mem_cons, List.not_mem_nil, or_false, not_or] at h4
  obtain ⟨m1, m2, m3, m4, m5, m6⟩ := h4
  simp only [parseLine]
  rw [if_neg hb, if_neg h3, if_neg m1, if_neg m2, if_neg m3, if_neg m4, if_neg m5,
    if_neg m6, h1]

theorem parseLine_body_not (r : Recipe) (g : Str) (h1 : trim g = g) (h2 : g ≠ [])
    (h3 : '\t' ∉ g) (h4 : g ∉ markers) :
    parseLine (r, CurSection.notes) g
      = ({ r with notes := r.notes ++ [g] }, CurSection.notes) := by
  have hb : trim g ≠ [] := by rw [h1]; exact h2
  rw [← h1] at h4
  simp only [markers, List.mem_cons, List.not_mem_nil, or_false, not_or] at h4
  obtain ⟨m1, m2, m3, m4, m5, m6⟩ := h4
  simp only [parseLine]
  rw [if_neg hb, if_neg h3, if_neg m1, if_neg m2, if_neg m3, if_neg m4, if_neg m5,
    if_neg m6, h1]

/-! ## Folding a whole section body -/

theorem foldl_body_ing (gs : List Str) (r : Recipe) (h : ∀ g ∈ gs, cleanBody g) :
    List.foldl parseLine (r, CurSection.ingredients) gs
      = ({ r with ingreds := r.ingreds ++ gs }, CurSection.ingredients) := by
  induction gs generalizing r with
  | nil => simp
  | cons g gs ih =>
    obtain ⟨h1, h2, _, h3, h4⟩ := h g (List.mem_cons_self g gs)
    rw [List.foldl_cons, parseLine_body_ing r g h1 h2 h3 h4,
      ih _ (fun x hx => h x (List.mem_cons_of_mem g hx))]
    simp

theorem foldl_body_ins (gs : List Str) (r : Recipe) (h : ∀ g ∈ gs, cleanBody g) :
    List.foldl parseLine (r, CurSection.instructions) gs
      = ({ r with instructions := r.instructions ++ gs }, CurSection.instructions) := by
  induction gs generalizing r with
  | nil => simp
  | cons g gs ih =>
    obtain ⟨h1, h2, _, h3, h4⟩ := h g (List.mem_cons_self g gs)
    rw [List.foldl_cons, parseLine_body_ins r g h1 h2 h3 h4,
      ih _ (fun x hx => h x (List.mem_cons_of_mem g hx))]
    simp

theorem foldl_body_not (gs : List Str) (r : Recipe) (h : ∀ g ∈ gs, cleanBody g) :
    List.foldl parseLine (r, CurSection.notes) gs
      = ({ r with notes := r.notes ++ gs }, CurSection.notes) := by
  induction gs generalizing r with
  | nil => simp
  | cons g gs ih =>
    obtain ⟨h1, h2, _, h3, h4⟩ := h g (List.mem_cons_self g gs)
    rw [List.foldl_cons, parseLine_body_not r g h1 h2 h3 h4,
      ih _ (fun x hx => h x (List.mem_cons_of_mem g hx))]
    simp

/-! ## Round trip of the codec -/

theorem parse_serialize (r : Recipe)
    (hT : cleanField r.title) (hF : cleanField r.from_) (hS : cleanField r.servings)
    (hP : cleanField r.prep_time) (hC : cleanField r.cook_time)
    (hTt : cleanField r.total_time)
    (hI : ∀ l ∈ r.ingreds, cleanBody l) (hJ : ∀ l ∈ r.instructions, cleanBody l)
    (hK : ∀ l ∈ r.notes, cleanBody l) :
    parse_recipe_file (serialize r) = r := by
  unfold parse_recipe_file serialize
  simp only [List.foldl_append, List.foldl_cons, List.foldl_nil]
  rw [parseLine_header_title, parseLine_header_from, parseLine_header_servings,
    parseLine_header_prep, parseLine_header_cook, parseLine_header_total,
    parseLine_ingStart, foldl_body_ing _ _ hI, parseLine_ingEnd, parseLine_insStart,
    foldl_body_ins _ _ hJ, parseLine_insEnd, parseLine_notStart,
    foldl_body_not _ _ hK, parseLine_notEnd]
  simp [emptyRecipe, hT.1, hF.1, hS.1, hP.1, hC.1, hTt.1]

theorem header_line_clean (pre v : Str) (hpre1 : '\n' ∉ pre)
    (hpre3 : pre.getLast? ≠ some '\r') (hv : cleanField v) :
    '\n' ∉ pre ++ v ∧ (pre ++ v).getLast? ≠ some '\r' := by
  constructor
  · intro h
    rcases List.mem_append.mp h with h | h
    · exact hpre1 h
    · exact hv.2.1 h
  · cases hv' : v with
    | nil => simpa using hpre3
    | cons a t =>
      rw [List.getLast?_append_of_ne_nil _ (by simp)]
      intro heq
      have h1 := getLast_not_ws_of_trim v hv.1 '\r' (hv' ▸ heq)
      exact absurd h1 (by decide)

theorem body_line_clean (l : Str) (h : cleanBody l) :
    '\n' ∉ l ∧ l.getLast? ≠ some '\r' := by
  refine ⟨h.2.2.1, ?_⟩
  intro heq
  have h1 := getLast_not_ws_of_trim l h.1 '\r' heq
  exact absurd h1 (by decide)

theorem serialize_clean (r : Recipe)
    (hT : cleanField r.title) (hF : cleanField r.from_) (hS : cleanField r.servings)
    (hP : cleanField r.prep_time) (hC : cleanField r.cook_time)
    (hTt : cleanField r.total_time)
    (hI : ∀ l ∈ r.ingreds, cleanBody l) (hJ : ∀ l ∈ r.instructions, cleanBody l)
    (hK : ∀ l ∈ r.notes, cleanBody l) :
    ∀ l ∈ serialize r, '\n' ∉ l ∧ l.getLast? ≠ some '\r' := by
  intro l hl
  simp only [serialize, List.mem_append, List.mem_cons, List.not_mem_nil, or_false,
    or_assoc] at hl
  rcases hl with h | h | h | h | h | h | h | h | h | h | h | h | h | h | h
  · exact h ▸ header_line_clean _ _ (by decide) (by decide) hT
  · exact h ▸ header_line_clean _ _ (by decide) (by decide) hF
  · exact h ▸ header_line_clean _ _ (by decide) (by decide) hS
  · exact h ▸ header_line_clean _ _ (by decide) (by decide) hP
  · exact h ▸ header_line_clean _ _ (by decide) (by decide) hC
  · exact h ▸ header_line_clean _ _ (by decide) (by decide) hTt
  · exact h ▸ ⟨by decide, by decide⟩
  · exact body_line_clean l (hI l h)
  · exact h ▸ ⟨by decide, by decide⟩
  · exact h ▸ ⟨by decide, by decide⟩
  · exact body_line_clean l (hJ l h)
  · exact h ▸ ⟨by decide, by decide⟩
  · exact h ▸ ⟨by decide, by decide⟩
  · exact body_line_clean l (hK l h)
  · exact h ▸ ⟨by decide, by decide⟩

theorem decode_encode (r : Recipe)
    (hT : cleanField r.title) (hF : cleanField r.from_) (hS : cleanField r.servings)
    (hP : cleanField r.prep_time) (hC : cleanField r.cook_time)
    (hTt : cleanField r.total_time)
    (hI : ∀ l ∈ r.ingreds, cleanBody l) (hJ : ∀ l ∈ r.instructions, cleanBody l)
    (hK : ∀ l ∈ r.notes, cleanBody l) :
    decode (encode r) = r := by
  unfold decode encode
  rw [rustLines_joinNL (serialize r) (serialize_clean r hT hF hS hP hC hTt hI hJ hK)]
  exact parse_serialize r hT hF hS hP hC hTt hI hJ hK

/-- The screen-level serializer is the `Recipe`-level one applied to the
recipe whose ingredient list is the trimmed comma-split of the text box. -/
theorem save_recipe_eq (t f s p c tt : Str) (ing : Str) (ins nts : List Str) :
    save_recipe t f s p c tt ing ins nts
      = serialize ⟨t, f, s, p, c, tt, (splitComma ing).map trim, ins, nts⟩ := rfl

/-- Lines that are non-blank, tab-free and no marker are discarded while
no section is open. -/
theorem foldl_nosection_discard (ls : List Str) (r : Recipe)
    (h : ∀ l ∈ ls, trim l ≠ [] ∧ '\t' ∉ l ∧ trim l ∉ markers) :
    List.foldl parseLine (r, CurSection.nosection) ls = (r, CurSection.nosection) := by
  induction ls with
  | nil => rfl
  | cons l t ih =>
    obtain ⟨h1, h2, h3⟩ := h l (List.mem_cons_self l t)
    rw [List.foldl_cons, parseLine_nosection_discard r l h1 h2 h3,
      ih (fun x hx => h x (List.mem_cons_of_mem l hx))]

/-! ## Scheduler lemmas -/

theorem processDays_ok (fsys : Str → Option (List Str)) (l : List (Str × Str))
    (h : ∀ p ∈ l, p.2 ≠ [] → (fsys p.2).isSome) :
    processDays fsys l = Except.ok
      ((l.filter (fun p => !(p.2.isEmpty))).flatMap
         (fun p => extract_ingredients ((fsys p.2).getD [])),
       (l.filter (fun p => !(p.2.isEmpty))).map (fun p => p.1 ++ ": ".data ++ p.2)) := by
  induction l with
  | nil => rfl
  | cons q rest ih =>
    obtain ⟨day, name⟩ := q
    have ihr := ih (fun p hp => h p (List.mem_cons_of_mem (day, name) hp))
    by_cases hn : name = []
    · simp only [processDays, if_pos hn, ihr]
      simp [List.filter_cons, hn]
    · have hs := h (day, name) (List.mem_cons_self _ _) hn
      obtain ⟨c, hc⟩ := Option.isSome_iff_exists.mp hs
      simp only [processDays, if_neg hn, hc, ihr]
      simp [List.filter_cons, hn, hc, List.isEmpty_iff]

theorem processDays_err (fsys : Str → Option (List Str)) (l : List (Str × Str))
    (p0 : Str × Str)
    (h : List.find? (fun p => !(p.2.isEmpty) && (fsys p.2).isNone) l = some p0) :
    processDays fsys l = Except.error p0.2 := by
  induction l with
  | nil => simp at h
  | cons q rest ih =>
    obtain ⟨day, name⟩ := q
    rw [List.find?_cons] at h
    by_cases hn : name = []
    · have hpred : (!((day, name).2.isEmpty) && (fsys (day, name).2).isNone) = false := by
        simp [hn]
      rw [hpred] at h
      simp only [processDays, if_pos hn]
      exact ih h
    · cases hfv : fsys name with
      | none =>
        have hpred : (!((day, name).2.isEmpty) && (fsys (day, name).2).isNone) = true := by
          simp [hfv, List.isEmpty_iff, hn]
        rw [hpred] at h
        have hp0 : p0 = (day, name) := by
          simpa using h.symm
        simp [processDays, hn, hfv, hp0]
      | some c =>
        have hpred : (!((day, name).2.isEmpty) && (fsys (day, name).2).isNone) = false := by
          simp [hfv]
        rw [hpred] at h
        simp only [processDays, if_neg hn, hfv]
        rw [ih h]

/-! ## Layout lemmas -/

theorem wrapAux_width (fs mw : ℚ) (ws0 : List Str) :
    ∀ (rem lines : List Str) (current : Str),
      (∀ w ∈ rem, w ∈ ws0) →
      (∀ l ∈ lines, l ∈ ws0 ∨ (l.length : ℚ) * fs * (3 / 5) ≤ mw + fs * (3 / 10)) →
      (current = [] ∨ current ∈ ws0 ∨
        (current.length : ℚ) * fs * (3 / 5) ≤ mw + fs * (3 / 10)) →
      ∀ l ∈ wrapAux fs mw lines current rem,
        l ∈ ws0 ∨ (l.length : ℚ) * fs * (3 / 5) ≤ mw + fs * (3 / 10)
  | [], lines, current, _, hlines, hcur => by
    intro l hl
    unfold wrapAux at hl
    by_cases hc : current = []
    · rw [if_pos hc] at hl
      exact hlines l hl
    · rw [if_neg hc] at hl
      rcases List.mem_append.mp hl with hmem | hmem
      · exact hlines l hmem
      · have hlc : l = current := by simpa using hmem
        subst hlc
        rcases hcur with h | h
        · exact absurd h hc
        · exact h
  | w :: rem, lines, current, hrem, hlines, hcur => by
    intro l hl
    have hw : w ∈ ws0 := hrem w (List.mem_cons_self w rem)
    have hrem' : ∀ x ∈ rem, x ∈ ws0 := fun x hx => hrem x (List.mem_cons_of_mem w hx)
    unfold wrapAux at hl
    by_cases hc : current = []
    · rw [if_pos hc] at hl
      exact wrapAux_width fs mw ws0 rem lines w hrem' hlines (Or.inr (Or.inl hw)) l hl
    · rw [if_neg hc] at hl
      by_cases hfit : (current.length : ℚ) * fs * (3 / 5) + fs * (3 / 10)
          + (w.length : ℚ) * fs * (3 / 5) ≤ mw
      · rw [if_pos hfit] at hl
        refine wrapAux_width fs mw ws0 rem lines (current ++ ' ' :: w) hrem' hlines
          (Or.inr (Or.inr ?_)) l hl
        have hlen : ((current ++ ' ' :: w).length : ℚ)
            = (current.length : ℚ) + 1 + (w.length : ℚ) := by
          push_cast [List.length_append, List.length_cons]
          ring
        rw [hlen]
        nlinarith [hfit]
      · rw [if_neg hfit] at hl
        refine wrapAux_width fs mw ws0 rem (lines ++ [current]) w hrem' ?_
          (Or.inr (Or.inl hw)) l hl
        intro x hx
        rcases List.mem_append.mp hx with hmem | hmem
        · exact hlines x hmem
        · have hxc : x = current := by simpa using hmem
          subst hxc
          rcases hcur with h | h
          · exact absurd h hc
          · exact h

theorem place_line_y_ge (size x : ℚ) (st : PdfState) (line : Str) :
    (place_line size x st line).y_position ≥ 20 - (size + 2) := by
  unfold place_line
  by_cases h : st.y_position < 20
  · simp [h]
    norm_num
  · have h2 := not_lt.mp h
    simp [h]
    linarith

theorem place_line_y_eq (size x : ℚ) (st : PdfState) (line : Str) :
    (place_line size x st line).y_position
      = (if st.y_position < 20 then (280 : ℚ) else st.y_position) - (size + 2) := by
  unfold place_line
  by_cases h : st.y_position < 20
  · simp [h]
  · simp [h]

theorem place_line_pages (size x : ℚ) (st : PdfState) (line : Str) :
    (place_line size x st line).pages
      = (if st.y_position < 20
         then st.pages ++ [[⟨line, size, x, 280⟩]]
         else appendToLast st.pages ⟨line, size, x, st.y_position⟩) := by
  unfold place_line
  by_cases h : st.y_position < 20
  · simp only [if_pos h]
    unfold appendToLast
    rw [List.dropLast_concat]
    simp [List.getLastD_concat]
  · simp [h]

theorem foldl_place_y_ge (size x : ℚ) :
    ∀ (ls : List Str) (st : PdfState), ls ≠ [] →
      (ls.foldl (place_line size x) st).y_position ≥ 20 - (size + 2)
  | [], _, h => absurd rfl h
  | [l], st, _ => by
    rw [List.foldl_cons, List.foldl_nil]
    exact place_line_y_ge size x st l
  | l :: l2 :: rest, st, _ => by
    rw [List.foldl_cons]
    exact foldl_place_y_ge size x (l2 :: rest) _ (by simp)


/-! ## Claims -/

/-- Claim C1 (amended): parsing the bytes produced by serializing a
`Recipe` yields the original `Recipe`, for every `Recipe` whose field
strings contain no embedded tab or newline, whose six scalar fields
carry no leading or trailing whitespace, and whose ingredient,
instruction and note lines are whitespace-trimmed, non-empty and
distinct from the six section-marker strings. -/
theorem C1_round_trip (r : Recipe)
    (hT : cleanField r.title) (hF : cleanField r.from_) (hS : cleanField r.servings)
    (hP : cleanField r.prep_time) (hC : cleanField r.cook_time)
    (hTt : cleanField r.total_time)
    (hI : ∀ l ∈ r.ingreds, cleanBody l) (hJ : ∀ l ∈ r.instructions, cleanBody l)
    (hK : ∀ l ∈ r.notes, cleanBody l) :
    decode (encode r) = r :=
  decode_encode r hT hF hS hP hC hTt hI hJ hK

/-- Claim C1, counterexample to the round-trip law as stated: the
recipe whose title is `" a"` contains no tab and no newline, yet the
parser trims header values, so decoding its encoding does not return
it. -/
theorem C1_counterexample :
    decode (encode ⟨" a".data, [], [], [], [], [], [], [], []⟩)
      ≠ ⟨" a".data, [], [], [], [], [], [], [], []⟩ := by decide

/-- Claim C1, witness: the amended round trip at a concrete recipe. -/
theorem C1_round_trip_witness :
    decode (encode ⟨"Pasta".data, "Web".data, "4".data, "5 min".data, "10 min".data,
        "15 min".data, ["Pasta".data, "Salt".data], ["Boil water".data], ["Tasty".data]⟩)
      = ⟨"Pasta".data, "Web".data, "4".data, "5 min".data, "10 min".data,
        "15 min".data, ["Pasta".data, "Salt".data], ["Boil water".data], ["Tasty".data]⟩ :=
  C1_round_trip _ (by decide) (by decide) (by decide) (by decide) (by decide)
    (by decide) (by decide) (by decide) (by decide)

/-- Claim C2 (amended): for a seven-slot schedule whose assigned
identifiers all resolve, the produced shopping list is exactly the
concatenation, in fixed day order, of each assigned recipe's raw
ingredient-section lines (taken verbatim by the materializer's scanner,
without the Codec's trimming or blank-line handling), and the report
lists the non-empty days in order; an all-empty schedule yields an
empty shopping list and an empty report. -/
theorem C2_aggregation :
    (∀ (selected : List Str) (fsys : Str → Option (List Str)),
      selected.length = 7 →
      (∀ n ∈ selected, n ≠ [] → (fsys n).isSome) →
      process_selected_recipes selected fsys
        = Except.ok (specShoppingRaw selected fsys, specReport selected fsys))
    ∧ (∀ fsys : Str → Option (List Str),
      process_selected_recipes (List.replicate 7 []) fsys = Except.ok ([], [])) := by
  constructor
  · intro selected fsys _ h
    unfold process_selected_recipes specShoppingRaw specReport
    exact processDays_ok fsys (days.zip selected)
      (fun p hp => h p.2 (List.of_mem_zip hp).2)
  · intro fsys
    rfl

/-- Claim C2, counterexample to the claim as stated: a recipe whose
ingredient section holds the line `" Salt "` produces the shopping list
`[" Salt "]`, while the Codec parses that section to `["Salt"]` — the
shopping list is not the concatenation of ingredient sequences as the
Codec would parse them. -/
theorem C2_counterexample :
    process_selected_recipes ["R".data, [], [], [], [], [], []]
        (fun n => if n = "R".data
          then some ["Ingredients Start".data, " Salt ".data, "Ingredients End".data]
          else none)
      = Except.ok ([" Salt ".data], ["Monday: R".data])
    ∧ specShoppingCodec ["R".data, [], [], [], [], [], []]
        (fun n => if n = "R".data
          then some ["Ingredients Start".data, " Salt ".data, "Ingredients End".data]
          else none)
      = ["Salt".data]
    ∧ ([" Salt ".data] : List Str) ≠ ["Salt".data] :=
  ⟨rfl, by decide, by decide⟩

/-- Claim C2, witness: the amended aggregation at a concrete schedule,
plus the all-empty schedule case. -/
theorem C2_aggregation_witness :
    process_selected_recipes ["R".data, [], [], [], [], [], []]
        (fun _ => some ["Ingredients Start".data, "Salt".data, "Ingredients End".data])
      = Except.ok
        (specShoppingRaw ["R".data, [], [], [], [], [], []]
          (fun _ => some ["Ingredients Start".data, "Salt".data, "Ingredients End".data]),
         specReport ["R".data, [], [], [], [], [], []]
          (fun _ => some ["Ingredients Start".data, "Salt".data, "Ingredients End".data]))
    ∧ process_selected_recipes (List.replicate 7 []) (fun _ => none)
      = Except.ok ([], []) :=
  ⟨C2_aggregation.1 _ _ (by decide) (fun _ _ _ => rfl), C2_aggregation.2 _⟩

/-- Claim C3 (amended): the example record decodes to
`title="Pasta"`, `servings="4"`, `ingredients=["Pasta","Salt"]`,
`instructions=["Boil water"]` without failing; the final mismatched
`Ingredients End` line closes the open `Instructions` section (every
`End` marker resets the section state), so every further non-blank,
tab-free, non-marker line is discarded rather than appended. -/
theorem C3_example :
    parse_recipe_file exampleLines = exampleRecipe
    ∧ (List.foldl parseLine (emptyRecipe, CurSection.nosection) exampleLines).2
        = CurSection.nosection
    ∧ ∀ extra : List Str,
        (∀ l ∈ extra, trim l ≠ [] ∧ '\t' ∉ l ∧ trim l ∉ markers) →
        parse_recipe_file (exampleLines ++ extra) = exampleRecipe := by
  refine ⟨by decide, by decide, ?_⟩
  intro extra h
  unfold parse_recipe_file
  rw [List.foldl_append]
  have hstate : List.foldl parseLine (emptyRecipe, CurSection.nosection) exampleLines
      = (exampleRecipe, CurSection.nosection) := by decide
  rw [hstate, foldl_nosection_discard extra exampleRecipe h]

/-- Claim C3, counterexample to the claim as stated: appending the line
`"Simmer"` after the final `Ingredients End` leaves the parse result
unchanged — the line is discarded, not appended to a still-open
`Instructions` section. -/
theorem C3_counterexample :
    parse_recipe_file (exampleLines ++ ["Simmer".data]) = exampleRecipe
    ∧ parse_recipe_file (exampleLines ++ ["Simmer".data])
        ≠ { exampleRecipe with
             instructions := exampleRecipe.instructions ++ ["Simmer".data] } := by
  constructor
  · decide
  · decide

/-- Claim C3, witness: the discarded-suffix clause at concrete lines. -/
theorem C3_example_witness :
    parse_recipe_file (exampleLines ++ ["Stir".data, "Serve hot".data])
      = exampleRecipe :=
  C3_example.2.2 ["Stir".data, "Serve hot".data] (by decide)

/-- Claim C4 (amended): every line produced by the word-wrap step is
either one of the input's words, placed unsplit (in particular any
single word wider than the limit sits alone), or has approximate width
`len * font_size * 0.6` at most `max_width` plus one approximate space
width `0.3 * font_size` — the greedy check accounts the joining space
at `0.3×font_size` but the emitted line carries it at `0.6×font_size`,
so the stated bound `max_width` itself can be exceeded by that
difference. -/
theorem C4_wrap_width (text : Str) (font_size max_width : ℚ) (l : Str)
    (hl : l ∈ wrap_text text font_size max_width) :
    l ∈ splitWS text
    ∨ (l.length : ℚ) * font_size * (3 / 5) ≤ max_width + font_size * (3 / 10) :=
  wrapAux_width font_size max_width (splitWS text) (splitWS text) [] []
    (fun _ h => h) (by simp) (Or.inl rfl) l hl

/-- Claim C4, counterexample to the width bound as stated: wrapping
`"a b"` at `font_size = 10`, `max_width = 15` produces the single line
`"a b"` of approximate width `18 > 15`, although that line is not a
single word and both words individually fit the limit. -/
theorem C4_counterexample :
    wrap_text ("a b").data 10 15 = [("a b").data]
    ∧ ¬ ((((("a b").data).length : ℚ)) * 10 * (3 / 5) ≤ 15)
    ∧ ("a b").data ∉ splitWS ("a b").data
    ∧ ∀ w ∈ splitWS ("a b").data, ((w.length : ℚ)) * 10 * (3 / 5) ≤ 15 := by
  refine ⟨?_, by norm_num, by decide, ?_⟩
  · norm_num [wrap_text, splitWS, wordsAux, wrapAux]
    decide
  · have hs : splitWS ("a b").data = [['a'], ['b']] := by decide
    rw [hs]
    intro w hw
    rcases List.mem_cons.mp hw with rfl | hw2
    · norm_num
    · have hwb : w = ['b'] := by simpa using hw2
      subst hwb
      norm_num

/-- Claim C4, witness: the amended bound at a concrete input. -/
theorem C4_wrap_width_witness :
    ("a").data ∈ splitWS ("a").data
    ∨ (((("a").data).length : ℚ)) * 10 * (3 / 5) ≤ 100 + 10 * (3 / 10) :=
  C4_wrap_width ("a").data 10 100 ("a").data (by decide)

/-- Claim C5: after emitting any line the vertical cursor is at least
the bottom margin (`20`) minus that line's height (`size + 2`); when
the cursor has crossed the bottom-margin threshold, a fresh page is
opened and the cursor reset to `starting_y = 280` before the pending
line is placed (the line lands alone on the new page at `y = 280`),
never after; and `add_text` preserves the cursor bound whenever it
emits at least one line. -/
theorem C5_pagination (size x : ℚ) (st : PdfState) (line text : Str) :
    (place_line size x st line).y_position ≥ 20 - (size + 2)
    ∧ (place_line size x st line).y_position
        = (if st.y_position < 20 then (280 : ℚ) else st.y_position) - (size + 2)
    ∧ (place_line size x st line).pages
        = (if st.y_position < 20
           then st.pages ++ [[⟨line, size, x, 280⟩]]
           else appendToLast st.pages ⟨line, size, x, st.y_position⟩)
    ∧ (wrap_text text size 680 ≠ [] →
        (add_text text size x st).y_position ≥ 20 - (size + 2)) :=
  ⟨place_line_y_ge size x st line, place_line_y_eq size x st line,
   place_line_pages size x st line,
   fun h => foldl_place_y_ge size x (wrap_text text size 680) st h⟩

/-- Claim C5, witness: the pagination bounds at a concrete state. -/
theorem C5_pagination_witness :
    (place_line 12 10 ⟨280, [[]]⟩ ("x").data).y_position ≥ 20 - (12 + 2)
    ∧ (add_text ("hi").data 12 10 ⟨280, [[]]⟩).y_position ≥ 20 - (12 + 2) := by
  have h := C5_pagination 12 10 ⟨280, [[]]⟩ ("x").data ("hi").data
  exact ⟨h.1, h.2.2.2 (by decide)⟩

/-- Claim C6: with an empty pool, `randomize_all` assigns the empty
identifier to every slot and `randomize_single` assigns the empty
identifier to the targeted slot (a no-op when the index is out of
range); neither fails. -/
theorem C6_empty_pool (selected : List Str) (ks : Nat → Nat) (idx k : Nat) :
    randomize_all [] selected ks = List.replicate selected.length []
    ∧ randomize_single [] selected idx k = selected.set idx [] := by
  constructor
  · unfold randomize_all
    rw [List.mapIdx_eq_replicate_iff]
    intro i h
    rfl
  · rfl

/-- Claim C7: if some scheduled day's record fails to resolve, the
whole materialization returns the first such failure's error, and no
shopping-list/schedule-report pair is produced at all. -/
theorem C7_abort (selected : List Str) (fsys : Str → Option (List Str))
    (p0 : Str × Str) (_hlen : selected.length = 7)
    (hfind : List.find? (fun p => !(p.2.isEmpty) && (fsys p.2).isNone)
        (days.zip selected) = some p0) :
    process_selected_recipes selected fsys = Except.error p0.2
    ∧ ∀ out, process_selected_recipes selected fsys ≠ Except.ok out := by
  have h1 : process_selected_recipes selected fsys = Except.error p0.2 :=
    processDays_err fsys (days.zip selected) p0 hfind
  refine ⟨h1, fun out hok => ?_⟩
  rw [h1] at hok
  exact Except.noConfusion hok

/-- Claim C7, witness: a schedule whose Monday recipe is missing. -/
theorem C7_abort_witness :
    process_selected_recipes ["X".data, [], [], [], [], [], []] (fun _ => none)
      = Except.error ("X").data
    ∧ ∀ out, process_selected_recipes ["X".data, [], [], [], [], [], []]
        (fun _ => none) ≠ Except.ok out :=
  C7_abort ["X".data, [], [], [], [], [], []] (fun _ => none)
    ("Monday".data, "X".data) (by decide) (by decide)

/-- Claim C8: the serializer emits exactly the six header lines
unconditionally (key, tab, value — the value may be empty), then the
`Ingredients`, `Instructions` and `Notes` blocks, each a `Start`
marker, one line per item, and an `End` marker, in that fixed order. -/
theorem C8_serializer_shape (r : Recipe) : serialize r = specSerialize r := by
  simp [serialize, specSerialize, specSection, headerValues, knownKeys]

/-- Claim C9: blank lines leave the parser state unchanged everywhere;
a header line with an unknown key leaves the recipe and section
unchanged; and a non-blank, tab-free, non-marker line met while no
section is open is discarded without error. -/
theorem C9_permissive :
    (∀ (r : Recipe) (cs : CurSection) (l : Str), trim l = [] →
        parseLine (r, cs) l = (r, cs))
    ∧ (∀ (r : Recipe) (cs : CurSection) (l : Str), '\t' ∈ l →
        trim (splitTab l).1 ∉ knownKeys → parseLine (r, cs) l = (r, cs))
    ∧ (∀ (r : Recipe) (l : Str), trim l ≠ [] → '\t' ∉ l → trim l ∉ markers →
        parseLine (r, CurSection.nosection) l = (r, CurSection.nosection)) :=
  ⟨parseLine_blank, parseLine_unknownKey, parseLine_nosection_discard⟩

/-- Claim C9, witness: the three permissive behaviours at concrete
lines. -/
theorem C9_permissive_witness :
    parseLine (emptyRecipe, CurSection.ingredients) ("  ").data
      = (emptyRecipe, CurSection.ingredients)
    ∧ parseLine (emptyRecipe, CurSection.nosection) ("Rating\t5").data
      = (emptyRecipe, CurSection.nosection)
    ∧ parseLine (emptyRecipe, CurSection.nosection) ("stray line").data
      = (emptyRecipe, CurSection.nosection) :=
  ⟨C9_permissive.1 _ _ _ (by decide),
   C9_permissive.2.1 _ _ _ (by decide) (by decide),
   C9_permissive.2.2 _ _ (by decide) (by decide) (by decide)⟩

/-- Claim C10: randomizing a single slot with an index beyond the seven
slots leaves the schedule unchanged and does not fail. -/
theorem C10_oob_noop (recipes selected : List Str) (idx k : Nat)
    (hlen : selected.length = 7) (hidx : 7 ≤ idx) :
    randomize_single recipes selected idx k = selected := by
  unfold randomize_single
  exact List.set_eq_of_length_le (hlen.symm ▸ hidx)

/-- Claim C10, witness: index `9` against a seven-slot schedule. -/
theorem C10_oob_noop_witness :
    randomize_single ["A".data] (List.replicate 7 []) 9 0 = List.replicate 7 [] :=
  C10_oob_noop ["A".data] (List.replicate 7 []) 9 0 (by decide) (by omega)

end RecipeBot
